import Mathlib

/-!
Verification model of the structure sanitizer
`ComprehensiveReportGenerator._clean_circular_references`
(src/services/comprehensive_report_generator.py, lines 37-85).

Modelling choices (shallow embedding of the Python code):

* Python object identity is modelled by a heap `Heap : Nat → Node` mapping
  object identities (`id(obj)`) of container objects (dicts and lists) to
  their contents.  A value (`Val`) is either a primitive scalar, a pointer
  into the heap (a dict or list object), or an opaque object (`Val.obj`)
  carrying its type name, whether it is callable or exposes `__dict__`
  attribute state, and whether / how `str()` renders it.
* Python strings are sequences of code points, modelled as `List Char`
  (`PyStr`); slicing `s[:n]` is `List.take n`, `len` is `List.length`.
* Floats are abstract tokens (the sanitizer never computes with them);
  the `tag` field stands for the float's decimal rendering.
* The CPython recursion limit is modelled by an explicit `fuel` argument,
  decremented at each recursive call; exhausting it models `RecursionError`
  raised on frame entry.  An escaping Python exception is `Except.error`.
* The `seen` set is passed in state-passing style: `cleanCircularReferences`
  returns the result together with the final contents of the caller's `seen`
  set object, so that the in-place `seen.add` / `seen.remove` mutations of
  the source (lines 54 and 69) and the `seen.copy()` handed to children
  (lines 62 and 76) are modelled faithfully.
* `str()` / `repr()` of values (used by the two fallback paths, lines 65
  and 78) is modelled by `pyRepr`, including CPython's `Py_ReprEnter`
  cycle handling (a self-referential container renders as `[...]` or
  `{...}`) and its sharing of the recursion budget.
-/

/-- Python strings: sequences of code points. -/
abbrev PyStr := List Char

/-- Primitive scalar values: the types tested by
`isinstance(obj, (str, int, float, bool))` on line 43, plus `None`. -/
inductive Scalar where
  | none : Scalar
  | bool (b : Bool) : Scalar
  | int (n : Int) : Scalar
  | float (tag : PyStr) : Scalar
  | str (s : PyStr) : Scalar
deriving DecidableEq

/-- Python dict keys are hashable values; the sanitizer only compares them
with the string constants of the unsafe-key list, so scalars suffice. -/
abbrev Key := Scalar

/-- A value reachable during sanitization. -/
inductive Val where
  | scalar (s : Scalar) : Val
  | ptr (i : Nat) : Val
  | obj (typeName : PyStr) (hasDictOrCallable : Bool) (strOk : Bool) (strRepr : PyStr) : Val
deriving DecidableEq

/-- Contents of a container object at a heap identity. -/
inductive Node where
  | dict (entries : List (Key × Val)) : Node
  | list (items : List Val) : Node
deriving DecidableEq

/-- The heap: object identities of containers to their contents.  Python
guarantees every `id` held by a live reference resolves. -/
abbrev Heap := Nat → Node

/-- Output values of the sanitizer: a fresh tree of dicts, lists and
scalars (no object references remain). -/
inductive Out where
  | scalar (s : Scalar) : Out
  | dict (entries : List (Key × Out)) : Out
  | list (items : List Out) : Out

/-- An escaping Python exception. -/
inductive PyErr where
  | recursionError : PyErr
  | strFailure : PyErr
deriving DecidableEq

/-- The unsafe-key list of line 59. -/
def unsafeKeys : List PyStr :=
  [("_sa_instance_state").toList, ("__dict__").toList, ("__weakref__").toList,
   ("logger").toList, ("client").toList, ("session").toList]

/-- The membership test `key in [...]` of line 59: only string keys can
equal the listed string constants. -/
def isUnsafeKey (k : Key) : Bool :=
  match k with
  | Scalar.str s => unsafeKeys.contains s
  | _ => false

/-- `type(x).__name__` for each modelled value shape. -/
def pyTypeName (H : Heap) (v : Val) : PyStr :=
  match v with
  | Val.scalar Scalar.none => ("NoneType").toList
  | Val.scalar (Scalar.bool _) => ("bool").toList
  | Val.scalar (Scalar.int _) => ("int").toList
  | Val.scalar (Scalar.float _) => ("float").toList
  | Val.scalar (Scalar.str _) => ("str").toList
  | Val.ptr i =>
      match H i with
      | Node.dict _ => ("dict").toList
      | Node.list _ => ("list").toList
  | Val.obj tn _ _ _ => tn

/-- `f"<{type(value).__name__}>"` (lines 67 and 85). -/
def angled (tn : PyStr) : PyStr := ("<").toList ++ tn ++ (">").toList

/-- `repr` of a scalar as CPython renders it inside a container
(strings single-quoted; escaping of quote characters is not modelled,
no claim depends on the rendering's content). -/
def scalarRepr (s : Scalar) : PyStr :=
  match s with
  | Scalar.none => ("None").toList
  | Scalar.bool true => ("True").toList
  | Scalar.bool false => ("False").toList
  | Scalar.int n => (toString n).toList
  | Scalar.float tag => tag
  | Scalar.str s => ("\x27").toList ++ s ++ ("\x27").toList

/-- Sequence an option-producing map over a list, failing on the first
failure (the shape of a Python comprehension raising). -/
def optMapList {α β : Type} (f : α → Option β) : List α → Option (List β)
  | [] => some []
  | x :: xs =>
      match f x with
      | Option.none => Option.none
      | some y =>
          match optMapList f xs with
          | Option.none => Option.none
          | some ys => some (y :: ys)

/-- Sequence an except-producing map over a list, propagating the first
exception (a Python comprehension whose body may raise). -/
def exceptMapList {α β : Type} (f : α → Except PyErr β) : List α → Except PyErr (List β)
  | [] => Except.ok []
  | x :: xs =>
      match f x with
      | Except.error e => Except.error e
      | Except.ok y =>
          match exceptMapList f xs with
          | Except.error e => Except.error e
          | Except.ok ys => Except.ok (y :: ys)

/-- `repr(x)` (and `str(x)` for non-string `x`): recursive rendering of
containers, with CPython's `Py_ReprEnter` cycle detection (an already
active container renders as `[...]` / `{...}`, checked before the
recursion budget) and the shared recursion limit (`fuel`).  `none` models
the call raising. -/
def pyRepr (H : Heap) : Nat → List Nat → Val → Option PyStr
  | _, _, Val.scalar s => some (scalarRepr s)
  | _, _, Val.obj _ _ strOk strRepr => if strOk then some strRepr else Option.none
  | 0, rseen, Val.ptr i =>
      if i ∈ rseen then
        some (match H i with
          | Node.dict _ => ("\x7b...\x7d").toList
          | Node.list _ => ("[...]").toList)
      else Option.none
  | fuel+1, rseen, Val.ptr i =>
      if i ∈ rseen then
        some (match H i with
          | Node.dict _ => ("\x7b...\x7d").toList
          | Node.list _ => ("[...]").toList)
      else
        match H i with
        | Node.list items =>
            (optMapList (fun item => pyRepr H fuel (i :: rseen) item) items).map
              (fun parts =>
                ("[").toList ++ List.intercalate ((", ").toList) parts ++ ("]").toList)
        | Node.dict entries =>
            (optMapList (fun kv =>
                (pyRepr H fuel (i :: rseen) kv.2).map
                  (fun vs => scalarRepr kv.1 ++ ((": ").toList) ++ vs)) entries).map
              (fun parts =>
                ("\x7b").toList ++ List.intercalate ((", ").toList) parts ++ ("\x7d").toList)

/-- `str(x)`: the string itself for a string, otherwise its `repr`. -/
def pyStr (H : Heap) (fuel : Nat) (v : Val) : Option PyStr :=
  match v with
  | Val.scalar (Scalar.str s) => some s
  | _ => pyRepr H fuel [] v

/-- The per-key fallback of the dict branch (lines 63-67):
`str(value)[:200] if value is not None else None`, and on a second
failure `f"<{type(value).__name__}>"`.  Total: the inner bare `except`
absorbs everything. -/
def dictFallback (H : Heap) (fuel : Nat) (v : Val) : Out :=
  match v with
  | Val.scalar Scalar.none => Out.scalar Scalar.none
  | _ =>
      match pyStr H fuel v with
      | some s => Out.scalar (Scalar.str (s.take 200))
      | Option.none => Out.scalar (Scalar.str (angled (pyTypeName H v)))

/-- The whole-list fallback of the list branch (lines 77-78):
`[str(item)[:100] if item is not None else None for item in obj[:50]]`.
NOT protected: if `str(item)` raises here the exception escapes. -/
def listFallback (H : Heap) (fuel : Nat) (items : List Val) : Except PyErr Out :=
  (exceptMapList (fun item =>
      match item with
      | Val.scalar Scalar.none => Except.ok (Out.scalar Scalar.none)
      | _ =>
          match pyStr H fuel item with
          | some s => Except.ok (Out.scalar (Scalar.str (s.take 100)))
          | Option.none => Except.error PyErr.strFailure) (items.take 50)).map Out.list

/-- Characters of the diagnostic key of the cycle marker. -/
def circKeyChars : PyStr := ("_circular_ref").toList

/-- Characters of the diagnostic value of the cycle marker. -/
def circValChars : PyStr := ("Reference to ").toList ++ ("dict").toList

/-- The circular-reference marker of line 52:
`{"_circular_ref": f"Reference to {type(obj).__name__}"}` where `obj` is
the revisited dict. -/
def circMarker : Out :=
  Out.dict [(Scalar.str circKeyChars, Out.scalar (Scalar.str circValChars))]

/-- `if len(str_repr) > 200 else` truncation of line 83. -/
def truncIf200 (s : PyStr) : PyStr := if s.length > 200 then s.take 200 else s

/-- `_clean_circular_references(obj, seen)`, lines 37-85.  Returns the
result (or the escaping exception) together with the final contents of
the caller's `seen` set object.  Branches in source order:

1. line 43: `None` and scalar passthrough (unchanged, no truncation);
2. line 47: callable or attribute-state objects become their type name;
3. lines 49-70: dict branch: identity-based cycle marker, unsafe-key
   skipping, per-key recursion with a per-key try/except fallback, the
   node's own identity added before and removed after the children;
4. lines 72-78: list branch: truncation to 100 items, recursion per item
   with a fresh copy of `seen`, whole-list string fallback on failure;
5. lines 80-85: everything else: `str(obj)` truncated to 200, or a
   type-name placeholder.

Branches 2 and 5 are merged into the `Val.obj` arm, distinguished by the
`hasDictOrCallable` flag (an opaque object is never a dict or list, so
the relative order with branches 3-4 is immaterial). -/
def cleanCircularReferences (H : Heap) : Nat → Val → List Nat → Except PyErr Out × List Nat
  | 0, _, seen => (Except.error PyErr.recursionError, seen)
  | _+1, Val.scalar s, seen => (Except.ok (Out.scalar s), seen)
  | _+1, Val.obj tn hdc strOk strRepr, seen =>
      if hdc then
        (Except.ok (Out.scalar (Scalar.str tn)), seen)
      else
        if strOk then
          (Except.ok (Out.scalar (Scalar.str (truncIf200 strRepr))), seen)
        else
          (Except.ok (Out.scalar (Scalar.str (angled tn))), seen)
  | fuel+1, Val.ptr i, seen =>
      match H i with
      | Node.dict entries =>
          if i ∈ seen then
            (Except.ok circMarker, seen)
          else
            let seenIn := i :: seen
            let cleaned := entries.filterMap (fun kv =>
              if isUnsafeKey kv.1 then Option.none
              else some (kv.1,
                match (cleanCircularReferences H fuel kv.2 seenIn).1 with
                | Except.ok o => o
                | Except.error _ => dictFallback H fuel kv.2))
            (Except.ok (Out.dict cleaned), seenIn.erase i)
      | Node.list items =>
          let limited := if items.length > 100 then items.take 100 else items
          match exceptMapList (fun item => (cleanCircularReferences H fuel item seen).1) limited with
          | Except.ok outs => (Except.ok (Out.list outs), seen)
          | Except.error _ => (listFallback H fuel items, seen)

/-- The sanitizer's result value (the spec's `sanitize(value, visited)`;
the root call of the source passes `seen = set()`). -/
def sanitize (H : Heap) (fuel : Nat) (v : Val) (seen : List Nat) : Except PyErr Out :=
  (cleanCircularReferences H fuel v seen).1

/-- Every sequence in the output tree has at most 100 items (the spec's
sequence-size invariant; dicts are not sequences and are unbounded). -/
inductive SeqBounded : Out → Prop where
  | scalar (s : Scalar) : SeqBounded (Out.scalar s)
  | dict (es : List (Key × Out)) : (∀ kv ∈ es, SeqBounded kv.2) → SeqBounded (Out.dict es)
  | list (xs : List Out) : xs.length ≤ 100 → (∀ o ∈ xs, SeqBounded o) → SeqBounded (Out.list xs)

/-- No mapping anywhere in the output tree carries an unsafe key. -/
inductive NoUnsafe : Out → Prop where
  | scalar (s : Scalar) : NoUnsafe (Out.scalar s)
  | dict (es : List (Key × Out)) : (∀ kv ∈ es, isUnsafeKey kv.1 = false) →
      (∀ kv ∈ es, NoUnsafe kv.2) → NoUnsafe (Out.dict es)
  | list (xs : List Out) : (∀ o ∈ xs, NoUnsafe o) → NoUnsafe (Out.list xs)

/-- The string `s` occurs somewhere in the output tree: as a scalar string
value or as a mapping key. -/
inductive StrIn : PyStr → Out → Prop where
  | scalarStr (s : PyStr) : StrIn s (Out.scalar (Scalar.str s))
  | dictKey (s : PyStr) (es : List (Key × Out)) (o : Out) :
      (Scalar.str s, o) ∈ es → StrIn s (Out.dict es)
  | dictVal (s : PyStr) (es : List (Key × Out)) (k : Key) (o : Out) :
      (k, o) ∈ es → StrIn s o → StrIn s (Out.dict es)
  | listItem (s : PyStr) (xs : List Out) (o : Out) :
      o ∈ xs → StrIn s o → StrIn s (Out.list xs)

/-- The string `s` occurs in the input reachable from `v`: as a scalar
string value, a mapping key, or the (possibly angled) type name of an
opaque object. -/
inductive SrcStr (H : Heap) : Val → PyStr → Prop where
  | strHere (s : PyStr) : SrcStr H (Val.scalar (Scalar.str s)) s
  | objName (tn : PyStr) (hdc strOk : Bool) (sr : PyStr) :
      SrcStr H (Val.obj tn hdc strOk sr) tn
  | objAngled (tn : PyStr) (hdc strOk : Bool) (sr : PyStr) :
      SrcStr H (Val.obj tn hdc strOk sr) (angled tn)
  | dictKey (i : Nat) (es : List (Key × Val)) (s : PyStr) (v : Val) :
      H i = Node.dict es → (Scalar.str s, v) ∈ es → SrcStr H (Val.ptr i) s
  | dictVal (i : Nat) (es : List (Key × Val)) (k : Key) (v : Val) (s : PyStr) :
      H i = Node.dict es → (k, v) ∈ es → SrcStr H v s → SrcStr H (Val.ptr i) s
  | listItem (i : Nat) (xs : List Val) (v : Val) (s : PyStr) :
      H i = Node.list xs → v ∈ xs → SrcStr H v s → SrcStr H (Val.ptr i) s

/-- The key `k` appears in some mapping of the output tree. -/
inductive KeyIn : Key → Out → Prop where
  | here (k : Key) (es : List (Key × Out)) (o : Out) :
      (k, o) ∈ es → KeyIn k (Out.dict es)
  | viaVal (k k2 : Key) (es : List (Key × Out)) (o : Out) :
      (k2, o) ∈ es → KeyIn k o → KeyIn k (Out.dict es)
  | viaItem (k : Key) (xs : List Out) (o : Out) :
      o ∈ xs → KeyIn k o → KeyIn k (Out.list xs)

/-- The key `k` appears in some mapping of the input reachable from `v`. -/
inductive SrcKey (H : Heap) : Val → Key → Prop where
  | here (i : Nat) (es : List (Key × Val)) (k : Key) (v : Val) :
      H i = Node.dict es → (k, v) ∈ es → SrcKey H (Val.ptr i) k
  | viaDict (i : Nat) (es : List (Key × Val)) (k2 : Key) (v : Val) (k : Key) :
      H i = Node.dict es → (k2, v) ∈ es → SrcKey H v k → SrcKey H (Val.ptr i) k
  | viaList (i : Nat) (xs : List Val) (v : Val) (k : Key) :
      H i = Node.list xs → v ∈ xs → SrcKey H v k → SrcKey H (Val.ptr i) k

/-- The recursion budget `fuel` covers the height of the output tree `o`
(each level of nesting consumes one call frame). -/
inductive FitsIn : Out → Nat → Prop where
  | scalar (s : Scalar) (g : Nat) : FitsIn (Out.scalar s) (g+1)
  | dict (es : List (Key × Out)) (g : Nat) :
      (∀ kv ∈ es, FitsIn kv.2 g) → FitsIn (Out.dict es) (g+1)
  | list (xs : List Out) (g : Nat) :
      (∀ o ∈ xs, FitsIn o g) → FitsIn (Out.list xs) (g+1)

mutual
/-- The Python value `v` (in heap `H`) is a faithful in-memory
representation of the output tree `o`: same structure, same scalars, same
keys, with container nodes that are fresh objects (their identities avoid
the ancestor set).  The output value built by the sanitizer — a tree of
freshly allocated dicts and lists — is such a representation of itself. -/
inductive Represents (H : Heap) : List Nat → Val → Out → Prop where
  | scalar (avoid : List Nat) (s : Scalar) :
      Represents H avoid (Val.scalar s) (Out.scalar s)
  | dict (avoid : List Nat) (i : Nat) (es : List (Key × Val)) (kos : List (Key × Out)) :
      i ∉ avoid → H i = Node.dict es → RepEntries H (i :: avoid) es kos →
      Represents H avoid (Val.ptr i) (Out.dict kos)
  | list (avoid : List Nat) (i : Nat) (vs : List Val) (os : List Out) :
      H i = Node.list vs → RepItems H avoid vs os →
      Represents H avoid (Val.ptr i) (Out.list os)
/-- Pointwise representation of a dict's entries. -/
inductive RepEntries (H : Heap) : List Nat → List (Key × Val) → List (Key × Out) → Prop where
  | nil (avoid : List Nat) : RepEntries H avoid [] []
  | cons (avoid : List Nat) (k : Key) (v : Val) (o : Out)
      (es : List (Key × Val)) (kos : List (Key × Out)) :
      Represents H avoid v o → RepEntries H avoid es kos →
      RepEntries H avoid ((k, v) :: es) ((k, o) :: kos)
/-- Pointwise representation of a list's items. -/
inductive RepItems (H : Heap) : List Nat → List Val → List Out → Prop where
  | nil (avoid : List Nat) : RepItems H avoid [] []
  | cons (avoid : List Nat) (v : Val) (o : Out) (vs : List Val) (os : List Out) :
      Represents H avoid v o → RepItems H avoid vs os →
      RepItems H avoid (v :: vs) (o :: os)
end

/-- The recursion budget suffices for the input: nested sequences are
shallower than the budget.  Mappings need no depth allowance because the
dict branch absorbs every child failure (its fallback is fully
protected), and scalars and opaque objects do not recurse. -/
def fuelOk (H : Heap) : Nat → Val → Bool
  | 0, _ => false
  | _+1, Val.scalar _ => true
  | _+1, Val.obj _ _ _ _ => true
  | fuel+1, Val.ptr i =>
      match H i with
      | Node.dict _ => true
      | Node.list items => (items.take 100).all (fun item => fuelOk H fuel item)

/-- A heap with no containers of interest (for scalar-rooted calls). -/
def trivHeap : Heap := fun _ => Node.dict []

/-- `a = {}; a["self"] = a`: a self-referential dict. -/
def selfHeap : Heap := fun i =>
  match i with
  | 0 => Node.dict [(Scalar.str (("self").toList), Val.ptr 0)]
  | _ => Node.dict []

/-- Lists nested deeper than the recursion budget used with it. -/
def chainHeap : Heap := fun i =>
  match i with
  | 0 => Node.list [Val.ptr 1]
  | 1 => Node.list [Val.ptr 2]
  | _ => Node.list []

/-- A list whose first item is a self-referential list (its sanitization
fails at low budget) and whose second item is a plain dict sibling. -/
def sibHeap : Heap := fun i =>
  match i with
  | 0 => Node.list [Val.ptr 1, Val.ptr 2]
  | 1 => Node.list [Val.ptr 1]
  | 2 => Node.dict [(Scalar.str [ 'a' ], Val.scalar (Scalar.int 1))]
  | _ => Node.list []

/-- A dict with a failing child (`a`: a nested list exhausting the budget)
and a healthy sibling (`b`: a scalar). -/
def dictIsoHeap : Heap := fun i =>
  match i with
  | 0 => Node.dict [(Scalar.str [ 'a' ], Val.ptr 1), (Scalar.str [ 'b' ], Val.scalar (Scalar.int 5))]
  | 1 => Node.list [Val.ptr 2]
  | _ => Node.list []

/-- `shared = {"x": 1}; root = {"a": shared, "b": shared}`: the same dict
object referenced from two sibling positions, not a cycle. -/
def sharedHeap : Heap := fun i =>
  match i with
  | 0 => Node.dict [(Scalar.str [ 'a' ], Val.ptr 1), (Scalar.str [ 'b' ], Val.ptr 1)]
  | 1 => Node.dict [(Scalar.str [ 'x' ], Val.scalar (Scalar.int 1))]
  | _ => Node.dict []

/-- `{"client": <opaque>, "name": "ok"}`. -/
def clientHeap : Heap := fun i =>
  match i with
  | 0 => Node.dict [(Scalar.str (("client").toList), Val.obj (("Opaque").toList) true true []),
                    (Scalar.str (("name").toList), Val.scalar (Scalar.str (("ok").toList)))]
  | _ => Node.dict []

/-- A list of 150 integers 0..149. -/
def listHeap150 : Heap := fun i =>
  match i with
  | 0 => Node.list ((List.range 150).map (fun n => Val.scalar (Scalar.int (Int.ofNat n))))
  | _ => Node.list []

/-- `{1: 2}`: a dict with a non-string key. -/
def intKeyHeap : Heap := fun i =>
  match i with
  | 0 => Node.dict [(Scalar.int 1, Val.scalar (Scalar.int 2))]
  | _ => Node.dict []

/-- `{"n": 7}`: a small clean dict for the idempotence witness. -/
def idemHeap : Heap := fun i =>
  match i with
  | 0 => Node.dict [(Scalar.str [ 'n' ], Val.scalar (Scalar.int 7))]
  | _ => Node.dict []

/-- A 201-character string. -/
def longStr : PyStr := List.replicate 201 'a'

/-- Sanitized output of `clientHeap`: the unsafe `client` key is gone. -/
def clientOut : Out :=
  Out.dict [(Scalar.str (("name").toList), Out.scalar (Scalar.str (("ok").toList)))]

/-- Output of `sibHeap` at budget 2: both items of the root list were
string-rendered by the whole-list fallback. -/
def sibOut : Out :=
  Out.list [Out.scalar (Scalar.str (("[[...]]").toList)),
            Out.scalar (Scalar.str (("\x7b\x27a\x27: 1\x7d").toList))]

/-- The sibling dict of `sibHeap` sanitized normally on its own. -/
def sibDictOut : Out := Out.dict [(Scalar.str [ 'a' ], Out.scalar (Scalar.int 1))]

/-- The shared dict of `sharedHeap` sanitized fully. -/
def sharedOutInner : Out := Out.dict [(Scalar.str [ 'x' ], Out.scalar (Scalar.int 1))]

/-- Output of `sharedHeap`: the shared dict appears fully sanitized at
both sibling positions. -/
def sharedOut : Out :=
  Out.dict [(Scalar.str [ 'a' ], sharedOutInner), (Scalar.str [ 'b' ], sharedOutInner)]

/-- The first 100 integers: output of the 150-integer list. -/
def list150Out : Out :=
  Out.list ((List.range 100).map (fun n => Out.scalar (Scalar.int (Int.ofNat n))))

/-- Output of `intKeyHeap`: the non-string key survives. -/
def intKeyOut : Out := Out.dict [(Scalar.int 1, Out.scalar (Scalar.int 2))]

/-- Output of `idemHeap`. -/
def idemOut : Out := Out.dict [(Scalar.str [ 'n' ], Out.scalar (Scalar.int 7))]

theorem exceptMapList_ok_forall2 {α β : Type} (f : α → Except PyErr β) :
    ∀ {xs : List α} {ys : List β}, exceptMapList f xs = Except.ok ys →
      List.Forall₂ (fun x y => f x = Except.ok y) xs ys := by
  intro xs
  induction xs with
  | nil =>
      intro ys h
      simp [exceptMapList] at h
      subst h
      exact List.Forall₂.nil
  | cons x xs ih =>
      intro ys h
      simp only [exceptMapList] at h
      cases hx : f x with
      | error e => rw [hx] at h; exact absurd h (by simp)
      | ok y =>
          rw [hx] at h
          cases ht : exceptMapList f xs with
          | error e => rw [ht] at h; exact absurd h (by simp)
          | ok ys0 =>
              rw [ht] at h
              have hy : y :: ys0 = ys := by
                simpa using h
              rw [← hy]
              exact List.Forall₂.cons hx (ih ht)

theorem forall2_exceptMapList {α β : Type} (f : α → Except PyErr β) :
    ∀ {xs : List α} {ys : List β}, List.Forall₂ (fun x y => f x = Except.ok y) xs ys →
      exceptMapList f xs = Except.ok ys := by
  intro xs ys h
  induction h with
  | nil => rfl
  | cons hxy _ ih =>
      simp only [exceptMapList, hxy, ih]

theorem forall2_mem_right {α β : Type} {R : α → β → Prop} :
    ∀ {xs : List α} {ys : List β}, List.Forall₂ R xs ys → ∀ {y : β}, y ∈ ys →
      ∃ x, x ∈ xs ∧ R x y := by
  intro xs ys h
  induction h with
  | nil => intro y hy; exact absurd hy (by simp)
  | cons hxy _ ih =>
      intro y hy
      rcases List.mem_cons.mp hy with hEq | hTail
      · exact ⟨_, List.mem_cons_self _ _, hEq ▸ hxy⟩
      · rcases ih hTail with ⟨x, hx, hR⟩
        exact ⟨x, List.mem_cons_of_mem _ hx, hR⟩

theorem exceptMapList_ok_of_all {α β : Type} (f : α → Except PyErr β) :
    ∀ (xs : List α), (∀ x ∈ xs, ∃ y, f x = Except.ok y) →
      ∃ ys, exceptMapList f xs = Except.ok ys := by
  intro xs
  induction xs with
  | nil => intro _; exact ⟨[], rfl⟩
  | cons x xs ih =>
      intro hall
      rcases hall x (List.mem_cons_self _ _) with ⟨y, hy⟩
      rcases ih (fun z hz => hall z (List.mem_cons_of_mem _ hz)) with ⟨ys, hys⟩
      exact ⟨y :: ys, by simp only [exceptMapList, hy, hys]⟩

theorem limited_eq_take (items : List Val) :
    (if items.length > 100 then items.take 100 else items) = items.take 100 := by
  split
  · rfl
  · exact (List.take_of_length_le (by omega)).symm

theorem listFallback_ok_shape {H : Heap} {g : Nat} {items : List Val} {o : Out} :
    listFallback H g items = Except.ok o →
    ∃ ys, o = Out.list ys ∧ ys.length ≤ 50 ∧
      ∀ y ∈ ys, y = Out.scalar Scalar.none ∨
        ∃ cs : PyStr, y = Out.scalar (Scalar.str cs) ∧ cs.length ≤ 100 := by
  intro h
  unfold listFallback at h
  cases hm : exceptMapList (fun item =>
      match item with
      | Val.scalar Scalar.none => Except.ok (Out.scalar Scalar.none)
      | _ =>
          match pyStr H g item with
          | some s => Except.ok (Out.scalar (Scalar.str (s.take 100)))
          | Option.none => Except.error PyErr.strFailure) (items.take 50) with
  | error e => rw [hm] at h; exact absurd h (by simp [Except.map])
  | ok ys =>
      rw [hm] at h
      have hoy : o = Out.list ys := by
        simpa [Except.map] using h.symm
      refine ⟨ys, hoy, ?_, ?_⟩
      · have hlen := List.Forall₂.length_eq (exceptMapList_ok_forall2 _ hm)
        have : (items.take 50).length ≤ 50 := List.length_take_le _ _
        omega
      · intro y hy
        rcases forall2_mem_right (exceptMapList_ok_forall2 _ hm) hy with ⟨x, _, hR⟩
        match x with
        | Val.scalar Scalar.none =>
            left
            have : Except.ok (Out.scalar Scalar.none) = Except.ok y := hR
            simpa using this.symm
        | Val.scalar (Scalar.bool b) =>
            right
            simp only at hR
            cases hps : pyStr H g (Val.scalar (Scalar.bool b)) with
            | none => rw [hps] at hR; exact absurd hR (by simp)
            | some s =>
                rw [hps] at hR
                exact ⟨s.take 100, by simpa using hR.symm, List.length_take_le _ _⟩
        | Val.scalar (Scalar.int n) =>
            right
            simp only at hR
            cases hps : pyStr H g (Val.scalar (Scalar.int n)) with
            | none => rw [hps] at hR; exact absurd hR (by simp)
            | some s =>
                rw [hps] at hR
                exact ⟨s.take 100, by simpa using hR.symm, List.length_take_le _ _⟩
        | Val.scalar (Scalar.float t) =>
            right
            simp only at hR
            cases hps : pyStr H g (Val.scalar (Scalar.float t)) with
            | none => rw [hps] at hR; exact absurd hR (by simp)
            | some s =>
                rw [hps] at hR
                exact ⟨s.take 100, by simpa using hR.symm, List.length_take_le _ _⟩
        | Val.scalar (Scalar.str s0) =>
            right
            simp only at hR
            cases hps : pyStr H g (Val.scalar (Scalar.str s0)) with
            | none => rw [hps] at hR; exact absurd hR (by simp)
            | some s =>
                rw [hps] at hR
                exact ⟨s.take 100, by simpa using hR.symm, List.length_take_le _ _⟩
        | Val.ptr i =>
            right
            simp only at hR
            cases hps : pyStr H g (Val.ptr i) with
            | none => rw [hps] at hR; exact absurd hR (by simp)
            | some s =>
                rw [hps] at hR
                exact ⟨s.take 100, by simpa using hR.symm, List.length_take_le _ _⟩
        | Val.obj tn hdc sOk sr =>
            right
            simp only at hR
            cases hps : pyStr H g (Val.obj tn hdc sOk sr) with
            | none => rw [hps] at hR; exact absurd hR (by simp)
            | some s =>
                rw [hps] at hR
                exact ⟨s.take 100, by simpa using hR.symm, List.length_take_le _ _⟩

theorem dictFallback_shape (H : Heap) (g : Nat) (v : Val) :
    dictFallback H g v = Out.scalar Scalar.none ∨
    ∃ cs : PyStr, dictFallback H g v = Out.scalar (Scalar.str cs) ∧
      (cs.length ≤ 200 ∨
       ∃ tn hdc sOk sr, v = Val.obj tn hdc sOk sr ∧ cs = angled tn) := by
  match v with
  | Val.scalar Scalar.none => left; rfl
  | Val.scalar (Scalar.bool b) =>
      right
      unfold dictFallback
      cases hps : pyStr H g (Val.scalar (Scalar.bool b)) with
      | some s => exact ⟨s.take 200, rfl, Or.inl (List.length_take_le _ _)⟩
      | none =>
          refine ⟨_, rfl, Or.inl ?_⟩
          simp only [pyTypeName]
          decide
  | Val.scalar (Scalar.int n) =>
      right
      unfold dictFallback
      cases hps : pyStr H g (Val.scalar (Scalar.int n)) with
      | some s => exact ⟨s.take 200, rfl, Or.inl (List.length_take_le _ _)⟩
      | none =>
          refine ⟨_, rfl, Or.inl ?_⟩
          simp only [pyTypeName]
          decide
  | Val.scalar (Scalar.float t) =>
      right
      unfold dictFallback
      cases hps : pyStr H g (Val.scalar (Scalar.float t)) with
      | some s => exact ⟨s.take 200, rfl, Or.inl (List.length_take_le _ _)⟩
      | none =>
          refine ⟨_, rfl, Or.inl ?_⟩
          simp only [pyTypeName]
          decide
  | Val.scalar (Scalar.str s0) =>
      right
      unfold dictFallback
      cases hps : pyStr H g (Val.scalar (Scalar.str s0)) with
      | some s => exact ⟨s.take 200, rfl, Or.inl (List.length_take_le _ _)⟩
      | none =>
          refine ⟨_, rfl, Or.inl ?_⟩
          simp only [pyTypeName]
          decide
  | Val.ptr i =>
      right
      unfold dictFallback
      cases hps : pyStr H g (Val.ptr i) with
      | some s => exact ⟨s.take 200, rfl, Or.inl (List.length_take_le _ _)⟩
      | none =>
          refine ⟨angled (pyTypeName H (Val.ptr i)), rfl, Or.inl ?_⟩
          unfold pyTypeName angled
          rcases hHi : H i with es | its
          · simp only [hHi]
            decide
          · simp only [hHi]
            decide
  | Val.obj tn hdc sOk sr =>
      right
      unfold dictFallback
      cases hps : pyStr H g (Val.obj tn hdc sOk sr) with
      | some s => exact ⟨s.take 200, rfl, Or.inl (List.length_take_le _ _)⟩
      | none => exact ⟨angled tn, rfl, Or.inr ⟨tn, hdc, sOk, sr, rfl, rfl⟩⟩

theorem circMarker_seqBounded : SeqBounded circMarker := by
  refine SeqBounded.dict _ ?_
  intro kv hkv
  simp only [circMarker, List.mem_singleton] at hkv
  subst hkv
  exact SeqBounded.scalar _

theorem circMarker_noUnsafe : NoUnsafe circMarker := by
  refine NoUnsafe.dict _ ?_ ?_
  · intro kv hkv
    simp only [circMarker, List.mem_singleton] at hkv
    subst hkv
    decide
  · intro kv hkv
    simp only [circMarker, List.mem_singleton] at hkv
    subst hkv
    exact NoUnsafe.scalar _

theorem sanitize_seqBounded : ∀ (g : Nat) (H : Heap) (v : Val) (seen : List Nat) (o : Out),
    sanitize H g v seen = Except.ok o → SeqBounded o := by
  intro g
  induction g with
  | zero =>
      intro H v seen o h
      exact absurd h (by simp [sanitize, cleanCircularReferences])
  | succ g ih =>
      intro H v seen o h
      match v with
      | Val.scalar s =>
          have hs : Out.scalar s = o := by
            simpa [sanitize, cleanCircularReferences] using h
          cases hs
          exact SeqBounded.scalar _
      | Val.obj tn hdc sOk sr =>
          cases hdc <;> cases sOk <;>
            (simp [sanitize, cleanCircularReferences] at h; cases h; exact SeqBounded.scalar _)
      | Val.ptr i =>
          rcases hH : H i with es | items
          · by_cases hmem : i ∈ seen
            · have hs : circMarker = o := by
                simpa [sanitize, cleanCircularReferences, hH, hmem] using h
              cases hs
              exact circMarker_seqBounded
            · have hs : Out.dict (es.filterMap (fun kv =>
                  if isUnsafeKey kv.1 then Option.none
                  else some (kv.1,
                    match (cleanCircularReferences H g kv.2 (i :: seen)).1 with
                    | Except.ok o0 => o0
                    | Except.error _ => dictFallback H g kv.2))) = o := by
                simpa [sanitize, cleanCircularReferences, hH, hmem] using h
              cases hs
              refine SeqBounded.dict _ ?_
              intro kv hkv
              rcases List.mem_filterMap.mp hkv with ⟨⟨k0, v0⟩, hmem0, hsome⟩
              by_cases hu : isUnsafeKey k0
              · rw [if_pos hu] at hsome
                exact absurd hsome (by simp)
              · rw [if_neg hu] at hsome
                have hkv2 : kv.2 = (match (cleanCircularReferences H g v0 (i :: seen)).1 with
                    | Except.ok o0 => o0
                    | Except.error _ => dictFallback H g v0) := by
                  have : some (k0, match (cleanCircularReferences H g v0 (i :: seen)).1 with
                      | Except.ok o0 => o0
                      | Except.error _ => dictFallback H g v0) = some kv := hsome
                  have hp := Option.some.inj this
                  rw [← hp]
                rw [hkv2]
                cases hres : (cleanCircularReferences H g v0 (i :: seen)).1 with
                | ok o0 =>
                    simp only [hres]
                    exact ih H v0 (i :: seen) o0 hres
                | error e =>
                    simp only [hres]
                    rcases dictFallback_shape H g v0 with hnone | ⟨cs, heq, _⟩
                    · rw [hnone]; exact SeqBounded.scalar _
                    · rw [heq]; exact SeqBounded.scalar _
          · have hlim := limited_eq_take items
            simp only [sanitize, cleanCircularReferences, hH] at h
            rw [hlim] at h
            cases hm : exceptMapList (fun item => (cleanCircularReferences H g item seen).1)
                (items.take 100) with
            | ok outs =>
                rw [hm] at h
                have hs : Out.list outs = o := by simpa using h
                cases hs
                refine SeqBounded.list _ ?_ ?_
                · have hlen := (exceptMapList_ok_forall2 _ hm).length_eq
                  have hl2 : (items.take 100).length ≤ 100 := List.length_take_le _ _
                  omega
                · intro o0 ho0
                  rcases forall2_mem_right (exceptMapList_ok_forall2 _ hm) ho0 with ⟨x, _, hR⟩
                  exact ih H x seen o0 hR
            | error e =>
                rw [hm] at h
                have h2 : listFallback H g items = Except.ok o := h
                rcases listFallback_ok_shape h2 with ⟨ys, rfl, hlen, hmem50⟩
                refine SeqBounded.list _ (by omega) ?_
                intro o0 ho0
                rcases hmem50 o0 ho0 with rfl | ⟨cs, rfl, _⟩
                · exact SeqBounded.scalar _
                · exact SeqBounded.scalar _

theorem sanitize_noUnsafe : ∀ (g : Nat) (H : Heap) (v : Val) (seen : List Nat) (o : Out),
    sanitize H g v seen = Except.ok o → NoUnsafe o := by
  intro g
  induction g with
  | zero =>
      intro H v seen o h
      exact absurd h (by simp [sanitize, cleanCircularReferences])
  | succ g ih =>
      intro H v seen o h
      match v with
      | Val.scalar s =>
          have hs : Out.scalar s = o := by
            simpa [sanitize, cleanCircularReferences] using h
          cases hs
          exact NoUnsafe.scalar _
      | Val.obj tn hdc sOk sr =>
          cases hdc <;> cases sOk <;>
            (simp [sanitize, cleanCircularReferences] at h; cases h; exact NoUnsafe.scalar _)
      | Val.ptr i =>
          rcases hH : H i with es | items
          · by_cases hmem : i ∈ seen
            · have hs : circMarker = o := by
                simpa [sanitize, cleanCircularReferences, hH, hmem] using h
              cases hs
              exact circMarker_noUnsafe
            · have hs : Out.dict (es.filterMap (fun kv =>
                  if isUnsafeKey kv.1 then Option.none
                  else some (kv.1,
                    match (cleanCircularReferences H g kv.2 (i :: seen)).1 with
                    | Except.ok o0 => o0
                    | Except.error _ => dictFallback H g kv.2))) = o := by
                simpa [sanitize, cleanCircularReferences, hH, hmem] using h
              cases hs
              refine NoUnsafe.dict _ ?_ ?_
              · intro kv hkv
                rcases List.mem_filterMap.mp hkv with ⟨⟨k0, v0⟩, hmem0, hsome⟩
                by_cases hu : isUnsafeKey k0
                · rw [if_pos hu] at hsome
                  exact absurd hsome (by simp)
                · rw [if_neg hu] at hsome
                  have hp := Option.some.inj hsome
                  have hk1 : kv.1 = k0 := by rw [← hp]
                  rw [hk1]
                  exact Bool.not_eq_true _ ▸ (by simpa using hu)
              · intro kv hkv
                rcases List.mem_filterMap.mp hkv with ⟨⟨k0, v0⟩, hmem0, hsome⟩
                by_cases hu : isUnsafeKey k0
                · rw [if_pos hu] at hsome
                  exact absurd hsome (by simp)
                · rw [if_neg hu] at hsome
                  have hp := Option.some.inj hsome
                  have hkv2 : kv.2 = (match (cleanCircularReferences H g v0 (i :: seen)).1 with
                      | Except.ok o0 => o0
                      | Except.error _ => dictFallback H g v0) := by
                    rw [← hp]
                  rw [hkv2]
                  cases hres : (cleanCircularReferences H g v0 (i :: seen)).1 with
                  | ok o0 =>
                      simp only [hres]
                      exact ih H v0 (i :: seen) o0 hres
                  | error e =>
                      simp only [hres]
                      rcases dictFallback_shape H g v0 with hnone | ⟨cs, heq, _⟩
                      · rw [hnone]; exact NoUnsafe.scalar _
                      · rw [heq]; exact NoUnsafe.scalar _
          · have hlim := limited_eq_take items
            simp only [sanitize, cleanCircularReferences, hH] at h
            rw [hlim] at h
            cases hm : exceptMapList (fun item => (cleanCircularReferences H g item seen).1)
                (items.take 100) with
            | ok outs =>
                rw [hm] at h
                have hs : Out.list outs = o := by simpa using h
                cases hs
                refine NoUnsafe.list _ ?_
                intro o0 ho0
                rcases forall2_mem_right (exceptMapList_ok_forall2 _ hm) ho0 with ⟨x, _, hR⟩
                exact ih H x seen o0 hR
            | error e =>
                rw [hm] at h
                have h2 : listFallback H g items = Except.ok o := h
                rcases listFallback_ok_shape h2 with ⟨ys, rfl, hlen, hmem50⟩
                refine NoUnsafe.list _ ?_
                intro o0 ho0
                rcases hmem50 o0 ho0 with rfl | ⟨cs, rfl, _⟩
                · exact NoUnsafe.scalar _
                · exact NoUnsafe.scalar _

theorem truncIf200_length (s : PyStr) : (truncIf200 s).length ≤ 200 := by
  unfold truncIf200
  split
  · exact List.length_take_le _ _
  · omega

theorem strIn_circMarker {s : PyStr} (h : StrIn s circMarker) : s.length ≤ 200 := by
  cases h with
  | dictKey _ o0 hmem =>
      simp only [circMarker, List.mem_singleton, Prod.mk.injEq] at hmem
      have hk := hmem.1
      have : s = circKeyChars := by
        have := congrArg (fun k => match k with | Scalar.str t => t | _ => []) hk
        simpa using this
      subst this
      decide
  | dictVal _ k o0 hmem hin =>
      simp only [circMarker, List.mem_singleton, Prod.mk.injEq] at hmem
      rw [hmem.2] at hin
      cases hin
      decide

theorem sanitize_strBound : ∀ (g : Nat) (H : Heap) (v : Val) (seen : List Nat) (o : Out) (s : PyStr),
    sanitize H g v seen = Except.ok o → StrIn s o → s.length ≤ 200 ∨ SrcStr H v s := by
  intro g
  induction g with
  | zero =>
      intro H v seen o s h _
      exact absurd h (by simp [sanitize, cleanCircularReferences])
  | succ g ih =>
      intro H v seen o s h hstr
      match v with
      | Val.scalar s0 =>
          have hs : Out.scalar s0 = o := by
            simpa [sanitize, cleanCircularReferences] using h
          cases hs
          cases hstr
          exact Or.inr (SrcStr.strHere _)
      | Val.obj tn hdc sOk sr =>
          cases hdc with
          | true =>
              simp [sanitize, cleanCircularReferences] at h
              cases h
              cases hstr
              exact Or.inr (SrcStr.objName _ _ _ _)
          | false =>
              cases sOk with
              | true =>
                  simp [sanitize, cleanCircularReferences] at h
                  cases h
                  cases hstr
                  exact Or.inl (truncIf200_length _)
              | false =>
                  simp [sanitize, cleanCircularReferences] at h
                  cases h
                  cases hstr
                  exact Or.inr (SrcStr.objAngled _ _ _ _)
      | Val.ptr i =>
          rcases hH : H i with es | items
          · by_cases hmem : i ∈ seen
            · have hs : circMarker = o := by
                simpa [sanitize, cleanCircularReferences, hH, hmem] using h
              cases hs
              exact Or.inl (strIn_circMarker hstr)
            · have hs : Out.dict (es.filterMap (fun kv =>
                  if isUnsafeKey kv.1 then Option.none
                  else some (kv.1,
                    match (cleanCircularReferences H g kv.2 (i :: seen)).1 with
                    | Except.ok o0 => o0
                    | Except.error _ => dictFallback H g kv.2))) = o := by
                simpa [sanitize, cleanCircularReferences, hH, hmem] using h
              cases hs
              cases hstr with
              | dictKey _ o0 hkv =>
                  rcases List.mem_filterMap.mp hkv with ⟨⟨k0, v0⟩, hmem0, hsome⟩
                  by_cases hu : isUnsafeKey k0
                  · rw [if_pos hu] at hsome
                    exact absurd hsome (by simp)
                  · rw [if_neg hu] at hsome
                    have hp := Option.some.inj hsome
                    have hk1 : k0 = Scalar.str s := by
                      have := congrArg Prod.fst hp
                      simpa using this
                    subst hk1
                    exact Or.inr (SrcStr.dictKey i es s v0 hH hmem0)
              | dictVal _ k o0 hkv hin =>
                  rcases List.mem_filterMap.mp hkv with ⟨⟨k0, v0⟩, hmem0, hsome⟩
                  by_cases hu : isUnsafeKey k0
                  · rw [if_pos hu] at hsome
                    exact absurd hsome (by simp)
                  · rw [if_neg hu] at hsome
                    have hp := Option.some.inj hsome
                    have ho0 : o0 = (match (cleanCircularReferences H g v0 (i :: seen)).1 with
                        | Except.ok o1 => o1
                        | Except.error _ => dictFallback H g v0) := by
                      have := congrArg Prod.snd hp
                      simpa using this.symm
                    subst ho0
                    cases hres : (cleanCircularReferences H g v0 (i :: seen)).1 with
                    | ok o1 =>
                        rw [hres] at hin
                        rcases ih H v0 (i :: seen) o1 s hres hin with hle | hsrc
                        · exact Or.inl hle
                        · exact Or.inr (SrcStr.dictVal i es k0 v0 s hH hmem0 hsrc)
                    | error e =>
                        rw [hres] at hin
                        rcases dictFallback_shape H g v0 with hnone | ⟨cs, heq, hcs⟩
                        · rw [hnone] at hin
                          cases hin
                        · rw [heq] at hin
                          cases hin
                          rcases hcs with hle | ⟨tn, hdc, sOk, sr, rfl, rfl⟩
                          · exact Or.inl hle
                          · exact Or.inr (SrcStr.dictVal i es k0 _ _ hH hmem0
                              (SrcStr.objAngled tn hdc sOk sr))
          · have hlim := limited_eq_take items
            simp only [sanitize, cleanCircularReferences, hH] at h
            rw [hlim] at h
            cases hm : exceptMapList (fun item => (cleanCircularReferences H g item seen).1)
                (items.take 100) with
            | ok outs =>
                rw [hm] at h
                have hs : Out.list outs = o := by simpa using h
                cases hs
                cases hstr with
                | listItem _ o0 ho0 hin =>
                    rcases forall2_mem_right (exceptMapList_ok_forall2 _ hm) ho0 with ⟨x, hx, hR⟩
                    rcases ih H x seen o0 s hR hin with hle | hsrc
                    · exact Or.inl hle
                    · exact Or.inr (SrcStr.listItem i items x s hH (List.take_subset _ _ hx) hsrc)
            | error e =>
                rw [hm] at h
                have h2 : listFallback H g items = Except.ok o := h
                rcases listFallback_ok_shape h2 with ⟨ys, rfl, hlen, hmem50⟩
                cases hstr with
                | listItem _ o0 ho0 hin =>
                    rcases hmem50 o0 ho0 with rfl | ⟨cs, rfl, hcs⟩
                    · cases hin
                    · cases hin
                      exact Or.inl (by omega)

theorem keyIn_circMarker {k : Key} (h : KeyIn k circMarker) : k = Scalar.str circKeyChars := by
  cases h with
  | here _ o0 hkv =>
      simp only [circMarker, List.mem_singleton, Prod.mk.injEq] at hkv
      exact hkv.1
  | viaVal k2 _ o0 hkv hin =>
      simp only [circMarker, List.mem_singleton, Prod.mk.injEq] at hkv
      rw [hkv.2] at hin
      cases hin

theorem sanitize_keySrc : ∀ (g : Nat) (H : Heap) (v : Val) (seen : List Nat) (o : Out) (k : Key),
    sanitize H g v seen = Except.ok o → KeyIn k o →
      k = Scalar.str circKeyChars ∨ SrcKey H v k := by
  intro g
  induction g with
  | zero =>
      intro H v seen o k h _
      exact absurd h (by simp [sanitize, cleanCircularReferences])
  | succ g ih =>
      intro H v seen o k h hkey
      match v with
      | Val.scalar s0 =>
          have hs : Out.scalar s0 = o := by
            simpa [sanitize, cleanCircularReferences] using h
          cases hs
          cases hkey
      | Val.obj tn hdc sOk sr =>
          cases hdc <;> cases sOk <;>
            (simp [sanitize, cleanCircularReferences] at h; cases h; cases hkey)
      | Val.ptr i =>
          rcases hH : H i with es | items
          · by_cases hmem : i ∈ seen
            · have hs : circMarker = o := by
                simpa [sanitize, cleanCircularReferences, hH, hmem] using h
              cases hs
              exact Or.inl (keyIn_circMarker hkey)
            · have hs : Out.dict (es.filterMap (fun kv =>
                  if isUnsafeKey kv.1 then Option.none
                  else some (kv.1,
                    match (cleanCircularReferences H g kv.2 (i :: seen)).1 with
                    | Except.ok o0 => o0
                    | Except.error _ => dictFallback H g kv.2))) = o := by
                simpa [sanitize, cleanCircularReferences, hH, hmem] using h
              cases hs
              cases hkey with
              | here _ o0 hkv =>
                  rcases List.mem_filterMap.mp hkv with ⟨⟨k0, v0⟩, hmem0, hsome⟩
                  by_cases hu : isUnsafeKey k0
                  · rw [if_pos hu] at hsome
                    exact absurd hsome (by simp)
                  · rw [if_neg hu] at hsome
                    have hp := Option.some.inj hsome
                    have hk1 : k0 = k := by
                      have := congrArg Prod.fst hp
                      simpa using this
                    subst hk1
                    exact Or.inr (SrcKey.here i es k0 v0 hH hmem0)
              | viaVal k2 _ o0 hkv hin =>
                  rcases List.mem_filterMap.mp hkv with ⟨⟨k0, v0⟩, hmem0, hsome⟩
                  by_cases hu : isUnsafeKey k0
                  · rw [if_pos hu] at hsome
                    exact absurd hsome (by simp)
                  · rw [if_neg hu] at hsome
                    have hp := Option.some.inj hsome
                    have ho0 : o0 = (match (cleanCircularReferences H g v0 (i :: seen)).1 with
                        | Except.ok o1 => o1
                        | Except.error _ => dictFallback H g v0) := by
                      have := congrArg Prod.snd hp
                      simpa using this.symm
                    subst ho0
                    cases hres : (cleanCircularReferences H g v0 (i :: seen)).1 with
                    | ok o1 =>
                        rw [hres] at hin
                        rcases ih H v0 (i :: seen) o1 k hres hin with hmk | hsrc
                        · exact Or.inl hmk
                        · exact Or.inr (SrcKey.viaDict i es k0 v0 k hH hmem0 hsrc)
                    | error e =>
                        rw [hres] at hin
                        rcases dictFallback_shape H g v0 with hnone | ⟨cs, heq, _⟩
                        · rw [hnone] at hin
                          cases hin
                        · rw [heq] at hin
                          cases hin
          · have hlim := limited_eq_take items
            simp only [sanitize, cleanCircularReferences, hH] at h
            rw [hlim] at h
            cases hm : exceptMapList (fun item => (cleanCircularReferences H g item seen).1)
                (items.take 100) with
            | ok outs =>
                rw [hm] at h
                have hs : Out.list outs = o := by simpa using h
                cases hs
                cases hkey with
                | viaItem _ o0 ho0 hin =>
                    rcases forall2_mem_right (exceptMapList_ok_forall2 _ hm) ho0 with ⟨x, hx, hR⟩
                    rcases ih H x seen o0 k hR hin with hmk | hsrc
                    · exact Or.inl hmk
                    · exact Or.inr (SrcKey.viaList i items x k hH (List.take_subset _ _ hx) hsrc)
            | error e =>
                rw [hm] at h
                have h2 : listFallback H g items = Except.ok o := h
                rcases listFallback_ok_shape h2 with ⟨ys, rfl, hlen, hmem50⟩
                cases hkey with
                | viaItem _ o0 ho0 hin =>
                    rcases hmem50 o0 ho0 with rfl | ⟨cs, rfl, _⟩
                    · cases hin
                    · cases hin

theorem cleanCircular_seen_preserved (H : Heap) :
    ∀ (g : Nat) (v : Val) (seen : List Nat), (cleanCircularReferences H g v seen).2 = seen := by
  intro g v seen
  match g, v with
  | 0, _ => rfl
  | g+1, Val.scalar s => rfl
  | g+1, Val.obj tn hdc sOk sr => cases hdc <;> cases sOk <;> rfl
  | g+1, Val.ptr i =>
      rcases hH : H i with es | items
      · simp only [cleanCircularReferences, hH]
        by_cases hmem : i ∈ seen
        · simp [hmem]
        · simp [hmem]
      · simp only [cleanCircularReferences, hH]
        split <;> rfl

theorem sanitize_dict_eq (H : Heap) (g : Nat) (i : Nat) (seen : List Nat)
    (es : List (Key × Val)) (hH : H i = Node.dict es) (hmem : i ∉ seen) :
    sanitize H (g+1) (Val.ptr i) seen = Except.ok (Out.dict (es.filterMap (fun kv =>
      if isUnsafeKey kv.1 then Option.none
      else some (kv.1,
        match (cleanCircularReferences H g kv.2 (i :: seen)).1 with
        | Except.ok o0 => o0
        | Except.error _ => dictFallback H g kv.2)))) := by
  simp [sanitize, cleanCircularReferences, hH, hmem]

theorem filterMap_unsafe_keys (es : List (Key × Val)) (valueOf : Key × Val → Out) :
    (es.filterMap (fun kv =>
        if isUnsafeKey kv.1 then Option.none else some (kv.1, valueOf kv))).map Prod.fst
      = (es.filter (fun kv => !(isUnsafeKey kv.1))).map Prod.fst := by
  induction es with
  | nil => rfl
  | cons kv es ih =>
      by_cases hu : isUnsafeKey kv.1
      · simp [List.filterMap_cons, List.filter_cons, hu, ih]
      · simp [List.filterMap_cons, List.filter_cons, hu, ih]

theorem sanitize_ok_of_fuelOk : ∀ (g : Nat) (H : Heap) (v : Val) (seen : List Nat),
    fuelOk H g v = true → ∃ o, sanitize H g v seen = Except.ok o := by
  intro g
  induction g with
  | zero =>
      intro H v seen hf
      exact absurd hf (by simp [fuelOk])
  | succ g ih =>
      intro H v seen hf
      match v with
      | Val.scalar s => exact ⟨_, rfl⟩
      | Val.obj tn hdc sOk sr => cases hdc <;> cases sOk <;> exact ⟨_, rfl⟩
      | Val.ptr i =>
          rcases hH : H i with es | items
          · by_cases hmem : i ∈ seen
            · exact ⟨circMarker, by simp [sanitize, cleanCircularReferences, hH, hmem]⟩
            · exact ⟨_, sanitize_dict_eq H g i seen es hH hmem⟩
          · have hf2 : (items.take 100).all (fun item => fuelOk H g item) = true := by
              simpa [fuelOk, hH] using hf
            have hall : ∀ x ∈ items.take 100,
                ∃ y, (cleanCircularReferences H g x seen).1 = Except.ok y := by
              intro x hx
              exact ih H x seen (List.all_eq_true.mp hf2 x hx)
            rcases exceptMapList_ok_of_all _ (items.take 100) hall with ⟨ys, hys⟩
            refine ⟨Out.list ys, ?_⟩
            have hlim := limited_eq_take items
            simp [sanitize, cleanCircularReferences, hH, hlim, hys]

theorem noUnsafe_dict_inv {es : List (Key × Out)} (h : NoUnsafe (Out.dict es)) :
    (∀ kv ∈ es, isUnsafeKey kv.1 = false) ∧ (∀ kv ∈ es, NoUnsafe kv.2) := by
  cases h
  exact ⟨by assumption, by assumption⟩

theorem noUnsafe_list_inv {xs : List Out} (h : NoUnsafe (Out.list xs)) :
    ∀ o ∈ xs, NoUnsafe o := by
  cases h
  assumption

theorem seqBounded_dict_inv {es : List (Key × Out)} (h : SeqBounded (Out.dict es)) :
    ∀ kv ∈ es, SeqBounded kv.2 := by
  cases h
  assumption

theorem seqBounded_list_inv {xs : List Out} (h : SeqBounded (Out.list xs)) :
    xs.length ≤ 100 ∧ ∀ o ∈ xs, SeqBounded o := by
  cases h
  exact ⟨by assumption, by assumption⟩

theorem fitsIn_dict_inv {es : List (Key × Out)} {g : Nat} (h : FitsIn (Out.dict es) (g+1)) :
    ∀ kv ∈ es, FitsIn kv.2 g := by
  cases h
  assumption

theorem fitsIn_list_inv {xs : List Out} {g : Nat} (h : FitsIn (Out.list xs) (g+1)) :
    ∀ o ∈ xs, FitsIn o g := by
  cases h
  assumption

theorem repItems_length {H : Heap} :
    ∀ (vs : List Val) (a : List Nat) (os : List Out),
      RepItems H a vs os → vs.length = os.length := by
  intro vs
  induction vs with
  | nil =>
      intro a os h
      cases h
      rfl
  | cons v vs ihv =>
      intro a os h
      cases h with
      | cons a2 v2 o2 vs2 os2 hr hrs =>
          simpa using ihv _ _ hrs

theorem repEntries_filterMap {H : Heap} {g : Nat}
    (ih : ∀ (o : Out) (v : Val) (sn : List Nat),
      Represents H sn v o → FitsIn o g → NoUnsafe o → SeqBounded o →
      sanitize H g v sn = Except.ok o) :
    ∀ (es : List (Key × Val)) (a : List Nat) (kos : List (Key × Out)),
      RepEntries H a es kos →
      (∀ kv ∈ kos, isUnsafeKey kv.1 = false) →
      (∀ kv ∈ kos, FitsIn kv.2 g) →
      (∀ kv ∈ kos, NoUnsafe kv.2) →
      (∀ kv ∈ kos, SeqBounded kv.2) →
      es.filterMap (fun kv => if isUnsafeKey kv.1 then Option.none
        else some (kv.1, match (cleanCircularReferences H g kv.2 a).1 with
          | Except.ok o0 => o0
          | Except.error _ => dictFallback H g kv.2)) = kos := by
  intro es
  induction es with
  | nil =>
      intro a kos h _ _ _ _
      cases h
      rfl
  | cons kv es ihe =>
      intro a kos h hkeys hfits hnus hsbs
      cases h with
      | cons a2 k v o1 es2 kos2 hrep1 hre1 =>
          have hk0 : isUnsafeKey k = false :=
            hkeys (k, o1) (List.mem_cons_self _ _)
          have hchild : (cleanCircularReferences H g v a).1 = Except.ok o1 :=
            ih o1 v a hrep1
              (hfits (k, o1) (List.mem_cons_self _ _))
              (hnus (k, o1) (List.mem_cons_self _ _))
              (hsbs (k, o1) (List.mem_cons_self _ _))
          simp only [List.filterMap_cons, hk0, Bool.false_eq_true, if_false, hchild]
          refine congrArg (fun l => (k, o1) :: l) ?_
          exact ihe a kos2 hre1
            (fun kv2 hkv => hkeys kv2 (List.mem_cons_of_mem _ hkv))
            (fun kv2 hkv => hfits kv2 (List.mem_cons_of_mem _ hkv))
            (fun kv2 hkv => hnus kv2 (List.mem_cons_of_mem _ hkv))
            (fun kv2 hkv => hsbs kv2 (List.mem_cons_of_mem _ hkv))

theorem repItems_mapForall {H : Heap} {g : Nat}
    (ih : ∀ (o : Out) (v : Val) (sn : List Nat),
      Represents H sn v o → FitsIn o g → NoUnsafe o → SeqBounded o →
      sanitize H g v sn = Except.ok o) :
    ∀ (vs : List Val) (a : List Nat) (os : List Out),
      RepItems H a vs os →
      (∀ o ∈ os, FitsIn o g) →
      (∀ o ∈ os, NoUnsafe o) →
      (∀ o ∈ os, SeqBounded o) →
      exceptMapList (fun item => (cleanCircularReferences H g item a).1) vs
        = Except.ok os := by
  intro vs
  induction vs with
  | nil =>
      intro a os h _ _ _
      cases h
      rfl
  | cons v vs ihv =>
      intro a os h hfits hnus hsbs
      cases h with
      | cons a2 v2 o1 vs2 os2 hrep1 hri1 =>
          have hchild : (cleanCircularReferences H g v a).1 = Except.ok o1 :=
            ih o1 v a hrep1
              (hfits o1 (List.mem_cons_self _ _))
              (hnus o1 (List.mem_cons_self _ _))
              (hsbs o1 (List.mem_cons_self _ _))
          have htail := ihv a os2 hri1
            (fun o2 ho2 => hfits o2 (List.mem_cons_of_mem _ ho2))
            (fun o2 ho2 => hnus o2 (List.mem_cons_of_mem _ ho2))
            (fun o2 ho2 => hsbs o2 (List.mem_cons_of_mem _ ho2))
          simp only [exceptMapList, hchild, htail]

theorem represents_sanitize : ∀ (g : Nat) (H2 : Heap) (o : Out) (v2 : Val) (seen : List Nat),
    Represents H2 seen v2 o → FitsIn o g → NoUnsafe o → SeqBounded o →
    sanitize H2 g v2 seen = Except.ok o := by
  intro g
  induction g with
  | zero =>
      intro H2 o v2 seen hrep hfit hnu hsb
      cases hfit
  | succ g ih =>
      intro H2 o v2 seen hrep hfit hnu hsb
      have ih2 : ∀ (o1 : Out) (v1 : Val) (sn : List Nat),
          Represents H2 sn v1 o1 → FitsIn o1 g → NoUnsafe o1 → SeqBounded o1 →
          sanitize H2 g v1 sn = Except.ok o1 :=
        fun o1 v1 sn hr hf hn hs => ih H2 o1 v1 sn hr hf hn hs
      cases hrep with
      | scalar sn s => rfl
      | dict sn i es kos hni hHi hre =>
          rw [sanitize_dict_eq H2 g i seen es hHi hni]
          refine congrArg (fun l => Except.ok (Out.dict l)) ?_
          rcases noUnsafe_dict_inv hnu with ⟨hkeys, hnus⟩
          exact repEntries_filterMap ih2 es (i :: seen) kos hre hkeys
            (fitsIn_dict_inv hfit) hnus (seqBounded_dict_inv hsb)
      | list sn i vs os hHi hri =>
          have hlen : os.length ≤ 100 := (seqBounded_list_inv hsb).1
          have hvslen : vs.length = os.length := repItems_length vs seen os hri
          have hmapm := repItems_mapForall ih2 vs seen os hri
            (fitsIn_list_inv hfit) (noUnsafe_list_inv hnu) (seqBounded_list_inv hsb).2
          have hnolim : (if vs.length > 100 then vs.take 100 else vs) = vs := by
            have hle : ¬ vs.length > 100 := by omega
            simp [hle]
          simp [sanitize, cleanCircularReferences, hHi, hnolim, hmapm]

/-- C1 counterexample: the claim "sanitize never raises, for every input,
at every recursion level" is false.  For lists nested deeper than the
recursion budget (here budget 2 against three nested lists), the
recursion error raised at the bottom is caught by the list branch, but
the whole-list string fallback of line 78 is itself unprotected and its
`str(item)` rendering also exhausts the budget, so the exception escapes
from `sanitize`. -/
theorem c1_counterexample :
    sanitize chainHeap 2 (Val.ptr 0) [] = Except.error PyErr.strFailure := rfl

/-- C1 (amended): sanitize returns a value and never raises provided the
input's nesting of sequences stays below the recursion budget; mappings
(including self-referential ones), callables, and objects with arbitrary
attribute state need no depth allowance at all, because the dict branch's
per-key fallback is fully protected and the cycle marker cuts dict
cycles.  Only chains of nested lists reaching the budget can make an
exception escape. -/
theorem c1_no_raise_bounded (H : Heap) (g : Nat) (v : Val) (seen : List Nat)
    (hf : fuelOk H g v = true) : ∃ o, sanitize H g v seen = Except.ok o :=
  sanitize_ok_of_fuelOk g H v seen hf

/-- C1 witness: a self-referential dict satisfies the budget condition at
any positive budget and sanitizes without raising. -/
theorem c1_witness :
    fuelOk selfHeap 1 (Val.ptr 0) = true ∧
    ∃ o, sanitize selfHeap 1 (Val.ptr 0) [] = Except.ok o :=
  ⟨rfl, c1_no_raise_bounded selfHeap 1 (Val.ptr 0) [] rfl⟩

/-- C2 counterexample: the claim "every scalar string in the output has
length at most 200, longer input strings are truncated" is false: a
201-character input string hits the scalar passthrough of line 43 and is
returned unchanged, untruncated. -/
theorem c2_counterexample :
    sanitize trivHeap 1 (Val.scalar (Scalar.str longStr)) [] =
      Except.ok (Out.scalar (Scalar.str longStr)) ∧ longStr.length = 201 :=
  ⟨rfl, List.length_replicate 201 'a'⟩

/-- C2 (amended): every scalar string anywhere in the output (value or
key) either has length at most 200 (all strings the sanitizer generates
are truncated to the caps) or is carried over verbatim from the input —
an input scalar string, an input mapping key, or an opaque object's type
name (plain or angle-bracketed); in particular input scalar strings
longer than 200 characters appear untruncated. -/
theorem c2_strings_bounded_or_source (H : Heap) (g : Nat) (v : Val) (seen : List Nat)
    (o : Out) (s : PyStr) (h : sanitize H g v seen = Except.ok o) (hs : StrIn s o) :
    s.length ≤ 200 ∨ SrcStr H v s :=
  sanitize_strBound g H v seen o s h hs

/-- C2 witness: the string of the `name` entry of the client example. -/
theorem c2_witness :
    sanitize clientHeap 2 (Val.ptr 0) [] = Except.ok clientOut ∧
    StrIn (("ok").toList) clientOut ∧
    ((("ok").toList).length ≤ 200 ∨ SrcStr clientHeap (Val.ptr 0) (("ok").toList)) := by
  have hin : StrIn (("ok").toList) clientOut :=
    StrIn.dictVal _ _ _ _ (List.mem_singleton.mpr rfl) (StrIn.scalarStr _)
  exact ⟨rfl, hin,
    c2_strings_bounded_or_source clientHeap 2 (Val.ptr 0) [] clientOut (("ok").toList) rfl hin⟩

/-- C3 counterexample: the claim "a failure while sanitizing one child
never alters the normal sanitization of its siblings, in the same mapping
or sequence" is false for sequences.  In `sibHeap` the first list item
fails at budget 2 (a self-referential list), and the whole-list fallback
re-renders EVERY item as a truncated string: the healthy sibling dict,
which on its own sanitizes to a mapping, appears as the string
rendering of a dict instead. -/
theorem c3_counterexample :
    sanitize sibHeap 2 (Val.ptr 0) [] = Except.ok sibOut ∧
    sanitize sibHeap 2 (Val.ptr 2) [] = Except.ok sibDictOut ∧
    Out.scalar (Scalar.str (("\x7b\x27a\x27: 1\x7d").toList)) ≠ sibDictOut :=
  ⟨rfl, rfl, fun h => Out.noConfusion h⟩

/-- C3 (amended): failure isolation holds per key in mappings: when one
child of a dict fails, that key alone receives the string/placeholder
fallback and every sibling key still receives its normal sanitization;
in sequences, however, a single failing item sends the whole list through
the string fallback (first 50 items rendered as strings). -/
theorem c3_dict_isolation (H : Heap) (g : Nat) (i : Nat) (seen : List Nat)
    (k1 k2 : Key) (v1 v2 : Val) (o2 : Out) (e : PyErr)
    (hH : H i = Node.dict [(k1, v1), (k2, v2)]) (hni : i ∉ seen)
    (hu1 : isUnsafeKey k1 = false) (hu2 : isUnsafeKey k2 = false)
    (h1 : (cleanCircularReferences H g v1 (i :: seen)).1 = Except.error e)
    (h2 : (cleanCircularReferences H g v2 (i :: seen)).1 = Except.ok o2) :
    sanitize H (g+1) (Val.ptr i) seen =
      Except.ok (Out.dict [(k1, dictFallback H g v1), (k2, o2)]) := by
  rw [sanitize_dict_eq H g i seen [(k1, v1), (k2, v2)] hH hni]
  simp [List.filterMap_cons, hu1, hu2, h1, h2]

/-- C3 witness: in `dictIsoHeap` the `a` child fails (nested lists beyond
the budget) and gets the fallback, the `b` sibling is sanitized
normally. -/
theorem c3_witness :
    dictIsoHeap 0 = Node.dict [(Scalar.str [ 'a' ], Val.ptr 1),
                               (Scalar.str [ 'b' ], Val.scalar (Scalar.int 5))] ∧
    (0 : Nat) ∉ ([] : List Nat) ∧
    (cleanCircularReferences dictIsoHeap 1 (Val.ptr 1) [0]).1 =
      Except.error PyErr.strFailure ∧
    (cleanCircularReferences dictIsoHeap 1 (Val.scalar (Scalar.int 5)) [0]).1 =
      Except.ok (Out.scalar (Scalar.int 5)) ∧
    sanitize dictIsoHeap 2 (Val.ptr 0) [] =
      Except.ok (Out.dict [(Scalar.str [ 'a' ], dictFallback dictIsoHeap 1 (Val.ptr 1)),
                           (Scalar.str [ 'b' ], Out.scalar (Scalar.int 5))]) := by
  refine ⟨rfl, by simp, rfl, rfl, ?_⟩
  exact c3_dict_isolation dictIsoHeap 1 0 [] _ _ _ _ _ PyErr.strFailure rfl (by simp)
    rfl rfl rfl rfl

/-- C4: a self-referential dict produces the circular-reference marker at
its `self` key instead of infinite recursion; and in general, whenever a
dict's identity is already in the visited set, sanitize returns the
marker (a mapping with the single diagnostic key `_circular_ref`
describing the referenced type) without recursing into the entries. -/
theorem c4_cycle_marker :
    (sanitize selfHeap 3 (Val.ptr 0) [] =
       Except.ok (Out.dict [(Scalar.str (("self").toList), circMarker)])) ∧
    ∀ (H : Heap) (g : Nat) (i : Nat) (seen : List Nat) (es : List (Key × Val)),
      H i = Node.dict es → i ∈ seen →
      sanitize H (g+1) (Val.ptr i) seen = Except.ok circMarker := by
  refine ⟨rfl, ?_⟩
  intro H g i seen es hH hmem
  simp [sanitize, cleanCircularReferences, hH, hmem]

/-- C4 witness: the general marker statement applied to the
self-referential dict with its identity already visited. -/
theorem c4_witness :
    selfHeap 0 = Node.dict [(Scalar.str (("self").toList), Val.ptr 0)] ∧
    (0 : Nat) ∈ [0] ∧
    sanitize selfHeap 1 (Val.ptr 0) [0] = Except.ok circMarker := by
  refine ⟨rfl, by simp, ?_⟩
  exact c4_cycle_marker.2 selfHeap 0 0 [0] _ rfl (by simp)

/-- C5: a dict referenced from two sibling positions (not its own
ancestor) is sanitized fully and identically at both positions — each
child call receives only the ancestor chain (the node's identity plus
the caller's visited set), so sibling references are never flagged as
cycles; shown concretely on the shared-sibling example and in general
for any two-entry dict with a shared value. -/
theorem c5_shared_no_false_marker :
    (sanitize sharedHeap 3 (Val.ptr 0) [] = Except.ok sharedOut) ∧
    ∀ (H : Heap) (g : Nat) (i : Nat) (seen : List Nat) (k1 k2 : Key) (v : Val) (o : Out),
      H i = Node.dict [(k1, v), (k2, v)] → i ∉ seen →
      isUnsafeKey k1 = false → isUnsafeKey k2 = false →
      (cleanCircularReferences H g v (i :: seen)).1 = Except.ok o →
      sanitize H (g+1) (Val.ptr i) seen = Except.ok (Out.dict [(k1, o), (k2, o)]) := by
  refine ⟨rfl, ?_⟩
  intro H g i seen k1 k2 v o hH hni hu1 hu2 hv
  rw [sanitize_dict_eq H g i seen [(k1, v), (k2, v)] hH hni]
  simp [List.filterMap_cons, hu1, hu2, hv]

/-- C5 witness: the general statement applied to the shared-sibling
example. -/
theorem c5_witness :
    sharedHeap 0 = Node.dict [(Scalar.str [ 'a' ], Val.ptr 1),
                              (Scalar.str [ 'b' ], Val.ptr 1)] ∧
    (0 : Nat) ∉ ([] : List Nat) ∧
    (cleanCircularReferences sharedHeap 2 (Val.ptr 1) [0]).1 = Except.ok sharedOutInner ∧
    sanitize sharedHeap 3 (Val.ptr 0) [] =
      Except.ok (Out.dict [(Scalar.str [ 'a' ], sharedOutInner),
                           (Scalar.str [ 'b' ], sharedOutInner)]) := by
  refine ⟨rfl, by simp, rfl, ?_⟩
  exact c5_shared_no_false_marker.2 sharedHeap 2 0 [] _ _ _ _ rfl (by simp) rfl rfl rfl

/-- C6: no unsafe key (`_sa_instance_state`, `__dict__`, `__weakref__`,
`logger`, `client`, `session`) ever appears in any mapping of the output,
for any input; for a non-cyclic dict the output keeps exactly the
non-unsafe keys, in order; and the concrete client example keeps
`name -> "ok"` while dropping `client`. -/
theorem c6_unsafe_keys :
    (∀ (H : Heap) (g : Nat) (v : Val) (seen : List Nat) (o : Out),
        sanitize H g v seen = Except.ok o → NoUnsafe o) ∧
    (∀ (H : Heap) (g : Nat) (i : Nat) (seen : List Nat) (es : List (Key × Val)),
        H i = Node.dict es → i ∉ seen →
        ∃ cleaned, sanitize H (g+1) (Val.ptr i) seen = Except.ok (Out.dict cleaned) ∧
          cleaned.map Prod.fst = (es.filter (fun kv => !(isUnsafeKey kv.1))).map Prod.fst) ∧
    (sanitize clientHeap 2 (Val.ptr 0) [] = Except.ok clientOut) := by
  refine ⟨fun H g v seen o h => sanitize_noUnsafe g H v seen o h, ?_, rfl⟩
  intro H g i seen es hH hni
  exact ⟨_, sanitize_dict_eq H g i seen es hH hni, filterMap_unsafe_keys es _⟩

/-- C6 witness: the client example instantiates both universal parts. -/
theorem c6_witness :
    clientHeap 0 = Node.dict
      [(Scalar.str (("client").toList), Val.obj (("Opaque").toList) true true []),
       (Scalar.str (("name").toList), Val.scalar (Scalar.str (("ok").toList)))] ∧
    (0 : Nat) ∉ ([] : List Nat) ∧
    (∃ cleaned, sanitize clientHeap (1+1) (Val.ptr 0) [] = Except.ok (Out.dict cleaned) ∧
      cleaned.map Prod.fst = (([(Scalar.str (("client").toList),
          Val.obj (("Opaque").toList) true true []),
        (Scalar.str (("name").toList),
          Val.scalar (Scalar.str (("ok").toList)))]).filter
        (fun kv => !(isUnsafeKey kv.1))).map Prod.fst) ∧
    NoUnsafe clientOut := by
  refine ⟨rfl, by simp, ?_, ?_⟩
  · exact c6_unsafe_keys.2.1 clientHeap 1 0 [] _ rfl (by simp)
  · exact c6_unsafe_keys.1 clientHeap 2 (Val.ptr 0) [] clientOut rfl

set_option maxRecDepth 8000 in
/-- C7: every sequence in the output has at most 100 items, for every
input; the concrete list of 150 integers comes out as exactly its first
100 items; and the whole-list fallback path truncates to the first 50
items of the original list. -/
theorem c7_seq_truncation :
    (∀ (H : Heap) (g : Nat) (v : Val) (seen : List Nat) (o : Out),
        sanitize H g v seen = Except.ok o → SeqBounded o) ∧
    (sanitize listHeap150 2 (Val.ptr 0) [] = Except.ok list150Out) ∧
    (∀ (H : Heap) (g : Nat) (items : List Val) (o : Out),
        listFallback H g items = Except.ok o →
        ∃ ys, o = Out.list ys ∧ ys.length = (items.take 50).length) := by
  refine ⟨fun H g v seen o h => sanitize_seqBounded g H v seen o h, rfl, ?_⟩
  intro H g items o h
  unfold listFallback at h
  cases hm : exceptMapList (fun item =>
      match item with
      | Val.scalar Scalar.none => Except.ok (Out.scalar Scalar.none)
      | _ =>
          match pyStr H g item with
          | some s => Except.ok (Out.scalar (Scalar.str (s.take 100)))
          | Option.none => Except.error PyErr.strFailure) (items.take 50) with
  | error e =>
      rw [hm] at h
      exact absurd h (by simp [Except.map])
  | ok ys =>
      rw [hm] at h
      have hoy : o = Out.list ys := by
        simpa [Except.map] using h.symm
      exact ⟨ys, hoy, ((exceptMapList_ok_forall2 _ hm).length_eq).symm⟩

/-- C7 witness: instantiations of the bound, the concrete truncation, and
the fallback-length statement. -/
theorem c7_witness :
    sanitize listHeap150 2 (Val.ptr 0) [] = Except.ok list150Out ∧
    SeqBounded list150Out ∧
    listFallback trivHeap 1 [Val.scalar (Scalar.int 7)] =
      Except.ok (Out.list [Out.scalar (Scalar.str [ '7' ])]) ∧
    (∃ ys, Out.list [Out.scalar (Scalar.str [ '7' ])] = Out.list ys ∧
      ys.length = (([Val.scalar (Scalar.int 7)]).take 50).length) := by
  refine ⟨c7_seq_truncation.2.1, ?_, rfl, ?_⟩
  · exact c7_seq_truncation.1 listHeap150 2 (Val.ptr 0) [] list150Out c7_seq_truncation.2.1
  · exact c7_seq_truncation.2.2 trivHeap 1 [Val.scalar (Scalar.int 7)] _ rfl

/-- C8 counterexample: the claim "every mapping in the output has only
string keys" is false: the dict branch copies keys verbatim, so the
integer key of the input dict `1 -> 2` survives into the output
mapping. -/
theorem c8_counterexample :
    sanitize intKeyHeap 2 (Val.ptr 0) [] = Except.ok intKeyOut ∧
    KeyIn (Scalar.int 1) intKeyOut ∧
    ∀ cs : PyStr, Scalar.int 1 ≠ Scalar.str cs := by
  refine ⟨rfl, KeyIn.here _ _ _ (List.mem_singleton.mpr rfl), ?_⟩
  intro cs h
  cases h

/-- C8 (amended): the output is a tree of mappings, sequences and scalars
(the type of output values), and every key of every output mapping is
either the diagnostic key `_circular_ref` or a key carried over verbatim
from an input mapping — possibly a non-string key; consequently, when all
reachable input keys are strings, every output mapping has only string
keys. -/
theorem c8_output_shape_keys :
    (∀ (H : Heap) (g : Nat) (v : Val) (seen : List Nat) (o : Out) (k : Key),
        sanitize H g v seen = Except.ok o → KeyIn k o →
          k = Scalar.str circKeyChars ∨ SrcKey H v k) ∧
    (∀ (H : Heap) (g : Nat) (v : Val) (seen : List Nat) (o : Out),
        sanitize H g v seen = Except.ok o →
        (∀ k, SrcKey H v k → ∃ cs, k = Scalar.str cs) →
        ∀ k, KeyIn k o → ∃ cs, k = Scalar.str cs) := by
  constructor
  · exact fun H g v seen o k h hk => sanitize_keySrc g H v seen o k h hk
  · intro H g v seen o h hsrc k hk
    rcases sanitize_keySrc g H v seen o k h hk with rfl | hs
    · exact ⟨circKeyChars, rfl⟩
    · exact hsrc k hs

/-- C8 witness: the `name` key of the client example traces back to the
input. -/
theorem c8_witness :
    sanitize clientHeap 2 (Val.ptr 0) [] = Except.ok clientOut ∧
    KeyIn (Scalar.str (("name").toList)) clientOut ∧
    (Scalar.str (("name").toList) = Scalar.str circKeyChars ∨
     SrcKey clientHeap (Val.ptr 0) (Scalar.str (("name").toList))) := by
  refine ⟨rfl, KeyIn.here _ _ _ (List.mem_singleton.mpr rfl), ?_⟩
  exact c8_output_shape_keys.1 clientHeap 2 (Val.ptr 0) [] clientOut _ rfl
    (KeyIn.here _ _ _ (List.mem_singleton.mpr rfl))

/-- C9: sanitize is idempotent: when a value `v2` (in heap `H2`) is a
faithful in-memory representation of an output `o` of sanitize — which
the output value built by sanitize is, being a fresh acyclic tree of
dicts, lists and scalars — re-running sanitize on it, with any budget
covering its height, returns exactly `o` again.  This holds for every
first input, in particular the already-clean ones of the claim. -/
theorem c9_idempotent (H1 : Heap) (f1 : Nat) (v1 : Val) (H2 : Heap) (v2 : Val)
    (o : Out) (g : Nat)
    (h1 : sanitize H1 f1 v1 [] = Except.ok o)
    (hrep : Represents H2 [] v2 o) (hfit : FitsIn o g) :
    sanitize H2 g v2 [] = Except.ok o :=
  represents_sanitize g H2 o v2 [] hrep hfit
    (sanitize_noUnsafe f1 H1 v1 [] o h1) (sanitize_seqBounded f1 H1 v1 [] o h1)

/-- C9 witness: the clean dict example, re-sanitized via its own heap
representation, reproduces itself. -/
theorem c9_witness :
    sanitize idemHeap 2 (Val.ptr 0) [] = Except.ok idemOut ∧
    Represents idemHeap [] (Val.ptr 0) idemOut ∧ FitsIn idemOut 2 ∧
    sanitize idemHeap 2 (Val.ptr 0) [] = Except.ok idemOut := by
  have hrep : Represents idemHeap [] (Val.ptr 0) idemOut := by
    refine Represents.dict [] 0 _ _ (by simp) rfl ?_
    exact RepEntries.cons _ _ _ _ _ _ (Represents.scalar _ _) (RepEntries.nil _)
  have hfit : FitsIn idemOut 2 := by
    refine FitsIn.dict _ 1 ?_
    intro kv hkv
    simp only [idemOut, List.mem_singleton] at hkv
    subst hkv
    exact FitsIn.scalar _ _
  exact ⟨rfl, hrep, hfit,
    c9_idempotent idemHeap 2 (Val.ptr 0) idemHeap (Val.ptr 0) idemOut 2 rfl hrep hfit⟩

/-- C10: after any call, the caller's visited-set object holds exactly
the identities it held before the call: the dict branch adds the node's
own identity before processing the children (who receive copies) and
removes it again before returning, and no other branch touches the set,
so no mutation is ever visible to sibling calls or to the caller. -/
theorem c10_seen_restored (H : Heap) (g : Nat) (v : Val) (seen : List Nat) :
    (cleanCircularReferences H g v seen).2 = seen :=
  cleanCircular_seen_preserved H g v seen
